import Mathlib

/-!
Verification development for the `akashic` metadata system.

Shallow embedding of: the value model (`MetaVal`, `NumberLike`), the glob
matcher front-end, source resolution (`Source::meta_path`,
`Sourcer::meta_paths`), metadata block composition
(`MetaProcessor::composite_item_file`), the fallible lazy value-stream
producers (`Flatten`, `Dedup`, `Skip`, `TakeWhile`, `InBetween`) and the
scalar operators (`Neg`, `Abs`).
-/

namespace Akashic

/-- Modelled from the spec: arbitrary-precision decimal (external `BigDecimal`
crate), represented as an integer mantissa `intVal` and a base-10 exponent
`scale`, denoting the numeric value `intVal / 10 ^ scale`. -/
structure BigDec where
  intVal : Int
  scale : Nat
deriving DecidableEq, Repr

/-- The dynamic metadata value type (`MetaVal` in `metadata/types.rs`):
Nil, Boolean, Integer, Decimal, String, and ordered Sequence (nested). -/
inductive MetaVal where
  | nil : MetaVal
  | boolean : Bool → MetaVal
  | int : Int → MetaVal
  | dec : BigDec → MetaVal
  | str : String → MetaVal
  | seq : List MetaVal → MetaVal
deriving Repr

mutual

/-- Structural (decidable) equality on `MetaVal`, mirroring the derived
`PartialEq`/`Eq` on the Rust type; sequences compare element-wise. -/
def MetaVal.decEq : (a b : MetaVal) → Decidable (a = b)
  | .nil, .nil => .isTrue rfl
  | .boolean x, .boolean y =>
    if h : x = y then .isTrue (by rw [h]) else .isFalse (fun hh => h (MetaVal.boolean.inj hh))
  | .int x, .int y =>
    if h : x = y then .isTrue (by rw [h]) else .isFalse (fun hh => h (MetaVal.int.inj hh))
  | .dec x, .dec y =>
    if h : x = y then .isTrue (by rw [h]) else .isFalse (fun hh => h (MetaVal.dec.inj hh))
  | .str x, .str y =>
    if h : x = y then .isTrue (by rw [h]) else .isFalse (fun hh => h (MetaVal.str.inj hh))
  | .seq x, .seq y =>
    match MetaVal.decEqList x y with
    | .isTrue h => .isTrue (by rw [h])
    | .isFalse h => .isFalse (fun hh => h (MetaVal.seq.inj hh))
  | .nil, .boolean _ => .isFalse (fun h => MetaVal.noConfusion h)
  | .nil, .int _ => .isFalse (fun h => MetaVal.noConfusion h)
  | .nil, .dec _ => .isFalse (fun h => MetaVal.noConfusion h)
  | .nil, .str _ => .isFalse (fun h => MetaVal.noConfusion h)
  | .nil, .seq _ => .isFalse (fun h => MetaVal.noConfusion h)
  | .boolean _, .nil => .isFalse (fun h => MetaVal.noConfusion h)
  | .boolean _, .int _ => .isFalse (fun h => MetaVal.noConfusion h)
  | .boolean _, .dec _ => .isFalse (fun h => MetaVal.noConfusion h)
  | .boolean _, .str _ => .isFalse (fun h => MetaVal.noConfusion h)
  | .boolean _, .seq _ => .isFalse (fun h => MetaVal.noConfusion h)
  | .int _, .nil => .isFalse (fun h => MetaVal.noConfusion h)
  | .int _, .boolean _ => .isFalse (fun h => MetaVal.noConfusion h)
  | .int _, .dec _ => .isFalse (fun h => MetaVal.noConfusion h)
  | .int _, .str _ => .isFalse (fun h => MetaVal.noConfusion h)
  | .int _, .seq _ => .isFalse (fun h => MetaVal.noConfusion h)
  | .dec _, .nil => .isFalse (fun h => MetaVal.noConfusion h)
  | .dec _, .boolean _ => .isFalse (fun h => MetaVal.noConfusion h)
  | .dec _, .int _ => .isFalse (fun h => MetaVal.noConfusion h)
  | .dec _, .str _ => .isFalse (fun h => MetaVal.noConfusion h)
  | .dec _, .seq _ => .isFalse (fun h => MetaVal.noConfusion h)
  | .str _, .nil => .isFalse (fun h => MetaVal.noConfusion h)
  | .str _, .boolean _ => .isFalse (fun h => MetaVal.noConfusion h)
  | .str _, .int _ => .isFalse (fun h => MetaVal.noConfusion h)
  | .str _, .dec _ => .isFalse (fun h => MetaVal.noConfusion h)
  | .str _, .seq _ => .isFalse (fun h => MetaVal.noConfusion h)
  | .seq _, .nil => .isFalse (fun h => MetaVal.noConfusion h)
  | .seq _, .boolean _ => .isFalse (fun h => MetaVal.noConfusion h)
  | .seq _, .int _ => .isFalse (fun h => MetaVal.noConfusion h)
  | .seq _, .dec _ => .isFalse (fun h => MetaVal.noConfusion h)
  | .seq _, .str _ => .isFalse (fun h => MetaVal.noConfusion h)

/-- Element-wise decidable equality on lists of `MetaVal`. -/
def MetaVal.decEqList : (a b : List MetaVal) → Decidable (a = b)
  | [], [] => .isTrue rfl
  | [], _ :: _ => .isFalse (fun h => List.noConfusion h)
  | _ :: _, [] => .isFalse (fun h => List.noConfusion h)
  | x :: xs, y :: ys =>
    match MetaVal.decEq x y with
    | .isFalse h => .isFalse (fun hh => h (List.cons.inj hh).1)
    | .isTrue h1 =>
      match MetaVal.decEqList xs ys with
      | .isTrue h2 => .isTrue (by rw [h1, h2])
      | .isFalse h2 => .isFalse (fun hh => h2 (List.cons.inj hh).2)

end

instance : DecidableEq MetaVal := MetaVal.decEq

/-- Modelled from the spec: the opaque error type of the value-stream engine
(`updated_scripting::Error`); producers forward it without inspecting it, so
only an identity tag is modelled. -/
structure StreamErr where
  tag : Nat
deriving DecidableEq, Repr

/-- One item of a fallible value stream: `Result<MetaVal, Error>`. -/
abbrev Res := Except StreamErr MetaVal

instance {α β : Type} [DecidableEq α] [DecidableEq β] :
    DecidableEq (Except α β) := fun a b =>
  match a, b with
  | .error e₁, .error e₂ =>
    if h : e₁ = e₂ then .isTrue (by rw [h]) else .isFalse (by simp [h])
  | .error _, .ok _ => .isFalse (by simp)
  | .ok _, .error _ => .isFalse (by simp)
  | .ok v₁, .ok v₂ =>
    if h : v₁ = v₂ then .isTrue (by rw [h]) else .isFalse (by simp [h])

/-! ## Value-stream producers (`updated_scripting/util/producer/producers.rs`)

A finite upstream producer is modelled by the list of items it yields, in
order; pulling one item is taking the head.  Stateful combinators are
modelled either by a `next` step function on an explicit state, or by the
total run function obtained by iterating `next` from a fresh state, with the
same case analysis as the Rust `next` body. -/

/-- The run of `Flatten::next` from state (pending queue `q`, remaining
upstream `up`).  `next` pops the queue first and yields the popped element
directly; on an upstream `Seq` it splices the elements into the queue and
recurses; every other upstream item is yielded verbatim. -/
def flattenRun : (q : List MetaVal) → (up : List Res) → List Res
  | mv :: qt, up => .ok mv :: flattenRun qt up
  | [], [] => []
  | [], .ok (.seq s) :: ut => flattenRun s ut
  | [], .ok .nil :: ut => .ok .nil :: flattenRun [] ut
  | [], .ok (.boolean b) :: ut => .ok (.boolean b) :: flattenRun [] ut
  | [], .ok (.int i) :: ut => .ok (.int i) :: flattenRun [] ut
  | [], .ok (.dec d) :: ut => .ok (.dec d) :: flattenRun [] ut
  | [], .ok (.str s) :: ut => .ok (.str s) :: flattenRun [] ut
  | [], .error e :: ut => .error e :: flattenRun [] ut
termination_by q up => (up.length, q.length)

/-- One level of flattening of a single upstream item: a `Seq` contributes
its elements, any other item contributes itself. -/
def oneLevel : Res → List Res
  | .ok (.seq s) => s.map .ok
  | o => [o]

/-- `Dedup::next` run with last-yielded value `last`: an `Ok` value equal to
`last` is skipped, otherwise it is yielded and becomes the new `last`;
errors are yielded verbatim and leave `last` unchanged. -/
def dedupRun (last : Option MetaVal) : List Res → List Res
  | [] => []
  | .error e :: t => .error e :: dedupRun last t
  | .ok v :: t =>
    if some v = last then dedupRun last t
    else .ok v :: dedupRun (some v) t

/-- `Skip::next` from state (remaining upstream, remaining skip count):
while the count is positive, each pull decrements it; an error pulled during
the discard phase is yielded immediately (already counted); once the count
is zero, items pass through unchanged.  Returns the yielded item and the
successor state. -/
def skipNext : (s : List Res × Nat) → Option (Res × (List Res × Nat))
  | ([], _) => none
  | (item :: ut, 0) => some (item, (ut, 0))
  | (.error e :: ut, n + 1) => some (.error e, (ut, n))
  | (.ok _ :: ut, n + 1) => skipNext (ut, n)
termination_by s => s.2

/-- State of `TakeWhile`: remaining upstream items and the `true`-so-far
flag (`self.2`). -/
abbrev TWState := List Res × Bool

/-- `TakeWhile::next` with predicate `pred`: while the flag is set, an `Ok`
item passing the predicate is yielded; the first predicate-`false` item
clears the flag and ends the stream; an upstream error or a
predicate-evaluation error is yielded verbatim with the flag left set.
Returns the yielded item (`none` = stream end signal) and successor state. -/
def takeWhileNext (pred : MetaVal → Except StreamErr Bool) :
    TWState → Option Res × TWState
  | (up, false) => (none, (up, false))
  | ([], true) => (none, ([], true))
  | (.error e :: ut, true) => (some (.error e), (ut, true))
  | (.ok mv :: ut, true) =>
    match pred mv with
    | .ok true => (some (.ok mv), (ut, true))
    | .ok false => (none, (ut, false))
    | .error e => (some (.error e), (ut, true))

/-- The run of `InBetween::next` with injected value `v` from state
(remaining upstream, toggle `self.2`): each call flips the toggle, yielding
the next upstream item when it becomes `true` and `Ok(v)` when it becomes
`false`; iteration ends when the toggle becomes `true` on exhausted
upstream. -/
def inBetweenRun (v : MetaVal) : (up : List Res) → (flag : Bool) → List Res
  | [], false => []
  | i :: t, false => i :: inBetweenRun v t true
  | up, true => .ok v :: inBetweenRun v up false
termination_by up flag => 2 * up.length + (if flag then 1 else 0)

/-! ## Paths and the glob matcher (`config/selection/matcher.rs`) -/

/-- A file-system path: whether it is absolute, and its components in order
(`..` components are kept, `.` components are normalized away, as in Rust's
`std::path::Path`). -/
structure FsPath where
  isAbs : Bool
  comps : List String
deriving DecidableEq, Repr

/-- `Path::file_name`: the final path component, or `none` when there is no
final normal component (the root path, the empty path, or a path ending in
`..`). -/
def FsPath.fileName (p : FsPath) : Option String :=
  match p.comps.getLast? with
  | none => none
  | some c => if c = ".." then none else some c

/-- The root path `/`. -/
def FsPath.root : FsPath := ⟨true, []⟩

/-- The empty path. -/
def FsPath.emptyPath : FsPath := ⟨false, []⟩

/-- `Path::parent`: drop the final component; `none` for the root and the
empty path. -/
def FsPath.parent (p : FsPath) : Option FsPath :=
  match p.comps with
  | [] => none
  | _ :: _ => some ⟨p.isAbs, p.comps.dropLast⟩

/-- `Path::join` with a single file name. -/
def FsPath.join (p : FsPath) (name : String) : FsPath :=
  ⟨p.isAbs, p.comps ++ [name]⟩

/-- Modelled from the spec: a compiled glob-pattern set (the external
`globset::GlobSet` collaborator), exposed as its name-matching function. -/
structure GlobSet where
  nameMatch : String → Bool

/-- `Matcher`: filter for file paths using a compiled set of glob patterns
(`Matcher(GlobSet)`). -/
structure Matcher where
  globs : GlobSet

/-- `Matcher::is_match`: matches a path based on its file name; if the path
has no file name (e.g. `/`), returns `false`. -/
def Matcher.is_match (m : Matcher) (p : FsPath) : Bool :=
  (p.fileName.map m.globs.nameMatch).getD false

/-- `Matcher::any`: a matcher whose pattern set is the universal pattern
`"*"`, which matches every file name. -/
def Matcher.any : Matcher := ⟨⟨fun _ => true⟩⟩

/-- `Matcher::empty`: a matcher with an empty pattern set, matching no name. -/
def Matcher.emptyMatcher : Matcher := ⟨⟨fun _ => false⟩⟩

/-! ## Source resolution (`source.rs`) -/

/-- The kind of an underlying I/O error (`std::io::ErrorKind`), as far as
`Error::is_fatal` inspects it. -/
inductive IoErrKind where
  | notFound
  | permissionDenied
  | other
deriving DecidableEq, Repr

/-- Result of a filesystem `stat` (`std::fs::Metadata`), restricted to the
flags the source-resolution code reads. -/
structure FsStat where
  isDir : Bool
  isFile : Bool
deriving DecidableEq, Repr

/-- The filesystem as seen by `std::fs::metadata`: a stat result or an I/O
error kind per path. -/
def FS := FsPath → Except IoErrKind FsStat

/-- `source::Error`: typed source-resolution errors, each carrying the
offending path (and for access failures the underlying I/O error kind). -/
inductive SrcError where
  | notADir (p : FsPath)
  | notAFile (p : FsPath)
  | itemAccess (p : FsPath) (k : IoErrKind)
  | metaAccess (p : FsPath) (k : IoErrKind)
  | noItemParentDir (p : FsPath)
  | noMetaParentDir (p : FsPath)
  | iterDir (k : IoErrKind)
deriving DecidableEq, Repr

/-- `Error::is_fatal`: a `MetaAccess` error is fatal unless its I/O kind is
`NotFound`; `NotADir` and `NoItemParentDir` are non-fatal; every other
error is fatal. -/
def SrcError.is_fatal : SrcError → Bool
  | .metaAccess _ k => match k with
    | .notFound => false
    | _ => true
  | .notADir _ | .noItemParentDir _ => false
  | _ => true

/-- `Anchor`: where the meta file sits relative to the item path. -/
inductive Anchor where
  | external
  | internal
deriving DecidableEq, Repr

/-- `Source`: a meta file name plus an `Anchor`. -/
structure Source where
  name : String
  anchor : Anchor
deriving DecidableEq, Repr

/-- `Source::meta_path`: stat the item path (surfacing access errors), pick
the candidate directory (parent for External, the item itself — required to
be a directory — for Internal), join the source file name, stat the
candidate and require it to be a regular file. -/
def Source.meta_path (src : Source) (fs : FS) (item_path : FsPath) :
    Except SrcError FsPath := do
  let item_fs_stat ← (fs item_path).mapError (fun io => .itemAccess item_path io)
  let meta_path_parent_dir ← match src.anchor with
    | .external =>
      match item_path.parent with
      | none => Except.error (.noItemParentDir item_path)
      | some par => Except.ok par
    | .internal =>
      if !item_fs_stat.isDir then Except.error (.notADir item_path)
      else Except.ok item_path
  let mp := meta_path_parent_dir.join src.name
  match fs mp with
  | .error io_err => Except.error (.metaAccess mp io_err)
  | .ok meta_fs_stat =>
    if !meta_fs_stat.isFile then Except.error (.notAFile mp)
    else Except.ok mp

/-- `MetaPaths::next` (the iterator state is the remaining source list):
resolve each source in order; yield a successful resolution with the
source, skip a non-fatal error silently, and yield a fatal error
immediately without trying further sources on that pull. -/
def metaPathsNext (fs : FS) (item_path : FsPath) :
    List Source → Option (Except SrcError (FsPath × Source) × List Source)
  | [] => none
  | src :: rest =>
    match src.meta_path fs item_path with
    | .ok mp => some (.ok (mp, src), rest)
    | .error e =>
      if e.is_fatal then some (.error e, rest)
      else metaPathsNext fs item_path rest

/-! ## Metadata blocks and composition (`metadata/processor.rs`) -/

/-- `MetaLocation` (the anchor enumeration used by the processor revision in
`metadata/processor.rs`): `Contains` = the meta file is inside the item
directory, `Siblings` = beside the item. -/
inductive MetaLocation where
  | contains
  | siblings
deriving DecidableEq, Repr

/-- Modelled from the spec: the opaque error type of metadata processing
(`failure::Error`); composition aborts on it without inspecting it. -/
structure ProcError where
  tag : Nat
deriving DecidableEq, Repr

/-- `MetaBlock`: a mapping from string key to `MetaVal`, keys unique
(`BTreeMap<String, MetaVal>`), modelled as its key/value association list. -/
abbrev MetaBlock := List (String × MetaVal)

/-- A well-formed block has pairwise-distinct keys (`BTreeMap` invariant). -/
def nodupKeys (b : MetaBlock) : Prop := (b.map Prod.fst).Nodup

instance (b : MetaBlock) : Decidable (nodupKeys b) := by
  unfold nodupKeys; infer_instance

/-- `BTreeMap` lookup by key. -/
def blookup : MetaBlock → String → Option MetaVal
  | [], _ => none
  | (k', v) :: t, k => if k = k' then some v else blookup t k

/-- `BTreeMap` insert: replace the value at an existing key, otherwise add
the binding. -/
def binsert : MetaBlock → String → MetaVal → MetaBlock
  | [], k, v => [(k, v)]
  | (k', v') :: t, k, v =>
    if k = k' then (k', v) :: t else (k', v') :: binsert t k v

/-- `BTreeMap::extend`: insert every binding of `b` into `acc`, overwriting
existing keys. -/
def bextend (acc b : MetaBlock) : MetaBlock :=
  b.foldl (fun m kv => binsert m kv.1 kv.2) acc

/-- `process_item_file` invoked once per location in order, short-circuiting
on the first error (`Self::process_item_file(&item_path, meta_location,
&config)?` inside the loop of `composite_item_file`).  `process_item_file`
itself reads the filesystem and the meta reader collaborator, so it is
abstracted as the function `pif` from a location to its result. -/
def resolveAll (pif : MetaLocation → Except ProcError MetaBlock) :
    List MetaLocation → Except ProcError (List MetaBlock)
  | [] => .ok []
  | loc :: t =>
    match pif loc with
    | .error e => .error e
    | .ok b =>
      match resolveAll pif t with
      | .error e => .error e
      | .ok bs => .ok (b :: bs)

/-- `MetaProcessor::composite_item_file`: start from an empty block, process
each meta location in the caller-supplied order via `process_item_file`
(abstracted as `pif`) and `extend` the accumulated block with each result,
aborting on the first error. -/
def composite_item_file (pif : MetaLocation → Except ProcError MetaBlock) :
    List MetaLocation → Except ProcError MetaBlock :=
  go []
where
  /-- The processing loop with accumulator `comp_mb`. -/
  go (comp_mb : MetaBlock) : List MetaLocation → Except ProcError MetaBlock
    | [] => .ok comp_mb
    | loc :: t =>
      match pif loc with
      | .error e => .error e
      | .ok mb => go (bextend comp_mb mb) t

/-- First-some choice on optional values (the override combinator used to
state combine-last semantics). -/
def oor : Option MetaVal → Option MetaVal → Option MetaVal
  | some v, _ => some v
  | none, b => b

/-- Combine-last lookup over an ordered list of blocks: the value for `k`
from the latest block that defines `k`. -/
def lastWins (bs : List MetaBlock) (k : String) : Option MetaVal :=
  match bs with
  | [] => none
  | b :: t => oor (lastWins t k) (blookup b k)

/-! ## `NumberLike` (`functions/util/number_like.rs`) -/

/-- `Ord::cmp` on integers. -/
def icmp (a b : Int) : Ordering :=
  if a < b then .lt else if a = b then .eq else .gt

/-- Modelled from the spec: `BigDecimal`'s `Ord::cmp` compares the numeric
values `intVal / 10 ^ scale`; cross-multiplying by the (positive) powers of
ten reduces that to an integer comparison. -/
def BigDec.cmp (l r : BigDec) : Ordering :=
  icmp (l.intVal * 10 ^ r.scale) (r.intVal * 10 ^ l.scale)

/-- `BigDecimal::from(i64)`: an integer-valued decimal of scale zero. -/
def BigDec.fromInt (i : Int) : BigDec := ⟨i, 0⟩

/-- The exact rational value denoted by a `BigDec`. -/
def BigDec.toRat (d : BigDec) : ℚ := (d.intVal : ℚ) / 10 ^ d.scale

/-- `NumberLike`: the numeric view over `MetaVal` restricted to integers and
decimals. -/
inductive NumberLike where
  | integer (i : Int)
  | decimal (d : BigDec)
deriving DecidableEq, Repr

/-- `NumberLike::val_cmp`: comparison based on the numeric values
represented; an `Integer` operand is promoted via `BigDecimal::from` when
compared against a `Decimal`. -/
def NumberLike.val_cmp : NumberLike → NumberLike → Ordering
  | .integer l, .integer r => icmp l r
  | .integer l, .decimal r => (BigDec.fromInt l).cmp r
  | .decimal l, .integer r => l.cmp (BigDec.fromInt r)
  | .decimal l, .decimal r => l.cmp r

/-- `NumberLike::val_eq`: `val_cmp == Ordering::Equal`. -/
def NumberLike.val_eq (a b : NumberLike) : Bool :=
  a.val_cmp b == Ordering.eq

/-- The exact rational value of a `NumberLike` (the promoted numeric value of
the spec). -/
def NumberLike.toRat : NumberLike → ℚ
  | .integer i => (i : ℚ)
  | .decimal d => d.toRat

/-- `Ord`-style comparison on rationals, for stating consistency of
`val_cmp` with numeric value. -/
def qcmp (a b : ℚ) : Ordering :=
  if a < b then .lt else if a = b then .eq else .gt

/-! ## Scalar operators (`scripting/expr/op/op1.rs`) -/

/-- `util::Number`: the scalar numeric type of the scripting layer
(integers are 64-bit machine integers `i64`). -/
inductive Number where
  | integer (i : Int)
  | decimal (d : BigDec)
deriving DecidableEq, Repr

/-- Two's-complement wraparound of 64-bit signed integer arithmetic: the
representative of `z` in `[-2 ^ 63, 2 ^ 63)`. -/
def wrap64 (z : Int) : Int := (z + 2 ^ 63) % 2 ^ 64 - 2 ^ 63

/-- `Op::neg`: negate an `Integer` with `i64` arithmetic; for a `Decimal`,
return the operand itself when it equals zero (avoiding a signed-zero
artifact), otherwise its negation. -/
def opNeg : Number → Number
  | .integer i => .integer (wrap64 (-i))
  | .decimal d =>
    .decimal (if d.cmp (BigDec.fromInt 0) = Ordering.eq then d
              else ⟨-d.intVal, d.scale⟩)

/-- `Op::abs`: absolute value; `i64::abs` for an `Integer`,
`BigDecimal::abs` for a `Decimal`. -/
def opAbs : Number → Number
  | .integer i => .integer (wrap64 |i|)
  | .decimal d => .decimal ⟨|d.intVal|, d.scale⟩

/-! ## Theorems -/

/-- A pending queue is drained as `Ok` items before the upstream is pulled
again. -/
lemma flattenRun_queue (q : List MetaVal) (up : List Res) :
    flattenRun q up = q.map .ok ++ flattenRun [] up := by
  induction q with
  | nil => simp
  | cons mv qt ih => simp [flattenRun, ih]

/-- Flatten removes exactly one nesting level from each upstream item. -/
lemma flattenRun_eq_bind (up : List Res) :
    flattenRun [] up = up.flatMap oneLevel := by
  induction up with
  | nil => simp [flattenRun]
  | cons item ut ih =>
    match item with
    | .ok (.seq s) =>
      rw [show flattenRun [] (.ok (.seq s) :: ut) = flattenRun s ut from by
        simp [flattenRun], flattenRun_queue]
      simp [oneLevel, ih]
    | .ok .nil => simp [flattenRun, oneLevel, ih]
    | .ok (.boolean b) => simp [flattenRun, oneLevel, ih]
    | .ok (.int i) => simp [flattenRun, oneLevel, ih]
    | .ok (.dec d) => simp [flattenRun, oneLevel, ih]
    | .ok (.str s) => simp [flattenRun, oneLevel, ih]
    | .error e => simp [flattenRun, oneLevel, ih]

/-- C3 counterexample: on the upstream item `Seq [Seq [1], 2]`, Flatten
yields the inner `Seq [1]` as a value itself (dequeued elements are not
re-examined), not the inner sequence's elements. -/
theorem flatten_c3_counterexample :
    flattenRun [] [.ok (.seq [.seq [.int 1], .int 2])]
      = [.ok (.seq [.int 1]), .ok (.int 2)] ∧
    flattenRun [] [.ok (.seq [.seq [.int 1], .int 2])]
      ≠ [.ok (.int 1), .ok (.int 2)] := by
  constructor
  · simp [flattenRun]
  · simp [flattenRun]

/-- C3 (amended): Flatten splices the elements of each upstream `Sequence`
item into its pending queue and yields dequeued elements directly, without
re-examining them through the sequence check, so exactly one nesting level
is flattened: an upstream Sequence-of-Sequences item causes the inner
sequences themselves to be yielded as values. -/
theorem flatten_one_level (q : List MetaVal) (up : List Res) :
    flattenRun q up = q.map .ok ++ up.flatMap oneLevel := by
  rw [flattenRun_queue, flattenRun_eq_bind]

/-- C4 counterexample: with an always-true predicate and upstream
`[Err e, Ok 7]`, the first pull yields the error and the next pull still
yields `Ok 7` — the stream is not terminated at the first upstream error
item. -/
theorem takeWhile_c4_counterexample :
    takeWhileNext (fun _ => .ok true) ([.error ⟨0⟩, .ok (.int 7)], true)
      = (some (.error ⟨0⟩), ([.ok (.int 7)], true)) ∧
    takeWhileNext (fun _ => .ok true) ([.ok (.int 7)], true)
      = (some (.ok (.int 7)), ([], true)) := by
  constructor
  · rfl
  · rfl

/-- C4 (amended): TakeWhile yields items while the predicate holds and
terminates the whole stream (yielding nothing further on any subsequent
pull) at the first item for which the predicate is false; an upstream error
item and a predicate-evaluation error are yielded verbatim and do not
terminate the stream. -/
theorem takeWhile_spec (pred : MetaVal → Except StreamErr Bool)
    (mv : MetaVal) (e : StreamErr) (up ut : List Res) :
    takeWhileNext pred (up, false) = (none, (up, false))
    ∧ (pred mv = .ok false →
        takeWhileNext pred (.ok mv :: ut, true) = (none, (ut, false)))
    ∧ (pred mv = .ok true →
        takeWhileNext pred (.ok mv :: ut, true) = (some (.ok mv), (ut, true)))
    ∧ (pred mv = .error e →
        takeWhileNext pred (.ok mv :: ut, true) = (some (.error e), (ut, true)))
    ∧ takeWhileNext pred (.error e :: ut, true) = (some (.error e), (ut, true)) := by
  refine ⟨?_, ?_, ?_, ?_, ?_⟩
  · match up with
    | [] => rfl
    | .error _ :: _ => rfl
    | .ok _ :: _ => rfl
  · intro h; simp [takeWhileNext, h]
  · intro h; simp [takeWhileNext, h]
  · intro h; simp [takeWhileNext, h]
  · rfl

/-- Witness for `takeWhile_spec` at concrete predicates and streams. -/
theorem takeWhile_spec_witness :
    takeWhileNext (fun _ => .ok false) ([.ok .nil], true) = (none, ([], false))
    ∧ takeWhileNext (fun _ => .ok true) ([.ok .nil], true)
        = (some (.ok .nil), ([], true))
    ∧ takeWhileNext (fun _ => .error ⟨1⟩) ([.ok .nil], true)
        = (some (.error ⟨1⟩), ([], true))
    ∧ takeWhileNext (fun _ => .ok true) ([.error ⟨0⟩], false)
        = (none, ([.error ⟨0⟩], false)) :=
  ⟨(takeWhile_spec (fun _ => .ok false) .nil ⟨1⟩ [] []).2.1 rfl,
   (takeWhile_spec (fun _ => .ok true) .nil ⟨1⟩ [] []).2.2.1 rfl,
   (takeWhile_spec (fun _ => .error ⟨1⟩) .nil ⟨1⟩ [] []).2.2.2.1 rfl,
   (takeWhile_spec (fun _ => .ok true) .nil ⟨0⟩ [.error ⟨0⟩] []).1⟩

/-- C5 counterexample: on the single-item upstream `[Ok 1]` with injected
value `9`, InBetween yields `[Ok 1, Ok 9]` — an injected value is emitted
after the final upstream item, so the output is not the interspersion
`x1, v, ..., v, xn`. -/
theorem inBetween_c5_counterexample :
    inBetweenRun (.int 9) [.ok (.int 1)] false = [.ok (.int 1), .ok (.int 9)]
    ∧ inBetweenRun (.int 9) [.ok (.int 1)] false ≠ [.ok (.int 1)] := by
  constructor
  · simp [inBetweenRun]
  · simp [inBetweenRun]

/-- C5 (amended): for a finite upstream yielding `x1..xn`, InBetween
produces `x1, v, x2, v, ..., xn, v` — starting with the upstream item and
alternating with the injected value, but also emitting one injected value
after the final upstream item. -/
theorem inBetween_run_eq (v : MetaVal) (up : List Res) :
    inBetweenRun v up false = up.flatMap (fun i => [i, .ok v]) := by
  induction up with
  | nil => simp [inBetweenRun]
  | cons i t ih => simp [inBetweenRun, ih]

/-- Dedup with last-seen state `l` is idempotent. -/
lemma dedupRun_idem (l : Option MetaVal) (xs : List Res) :
    dedupRun l (dedupRun l xs) = dedupRun l xs := by
  induction xs generalizing l with
  | nil => rfl
  | cons x t ih =>
    match x with
    | .error e => simp [dedupRun, ih]
    | .ok v =>
      by_cases h : some v = l
      · simp [dedupRun, h, ih]
      · simp [dedupRun, h, ih]

/-- C6: Dedup is idempotent — applying Dedup to the output of Dedup yields
exactly the same sequence of items (error items included, in the same
positions) as applying Dedup once. -/
theorem dedup_idempotent (xs : List Res) :
    dedupRun none (dedupRun none xs) = dedupRun none xs :=
  dedupRun_idem none xs

/-- C7: for every Matcher (pattern set irrelevant, including the universal
pattern `"*"`) and every path without a final path component (the root
path, the empty path), `Matcher::is_match` returns `false`. -/
theorem matcher_no_file_name (m : Matcher) (p : FsPath)
    (h : p.fileName = none) : m.is_match p = false := by
  simp [Matcher.is_match, h]

/-- Witness for `matcher_no_file_name`: the universal matcher on the root
path. -/
theorem matcher_no_file_name_witness :
    FsPath.root.fileName = none
    ∧ Matcher.any.is_match FsPath.root = false :=
  ⟨rfl, matcher_no_file_name Matcher.any FsPath.root rfl⟩

/-- C9: during Skip's discarding phase an error is yielded immediately and
counts as one of the `N` discarded items: after `k` consumed items
(`k - 1` successes and the error), the successor state discards only
`N - k` more; once the count is exhausted items pass through unchanged. -/
theorem skip_spec (oks : List MetaVal) (e : StreamErr) (rest : List Res)
    (N : Nat) (up : List Res) (h : oks.length < N) :
    skipNext (oks.map .ok ++ .error e :: rest, N)
      = some (.error e, (rest, N - (oks.length + 1)))
    ∧ skipNext (up, 0) = up.head?.map (fun i => (i, (up.tail, 0))) := by
  constructor
  · induction oks generalizing N with
    | nil =>
      obtain ⟨n, rfl⟩ : ∃ n, N = n + 1 := ⟨N - 1, by omega⟩
      simp [skipNext]
    | cons x xs ih =>
      obtain ⟨n, rfl⟩ : ∃ n, N = n + 1 := ⟨N - 1, by omega⟩
      have hx : xs.length < n := by simpa using h
      rw [show ((x :: xs).map Except.ok ++ .error e :: rest : List Res)
            = .ok x :: (xs.map .ok ++ .error e :: rest) from by simp]
      rw [show skipNext (.ok x :: (xs.map .ok ++ .error e :: rest), n + 1)
            = skipNext (xs.map .ok ++ .error e :: rest, n) from by
        simp [skipNext]]
      rw [ih n hx]
      have hl : (x :: xs).length = xs.length + 1 := rfl
      rw [hl, show n - (xs.length + 1) = n + 1 - (xs.length + 1 + 1) from by omega]
  · cases up <;> simp [skipNext]

/-- Witness for `skip_spec`: skip 3 over `[Ok 5, Err 2, Ok Nil]` yields the
error with two items consumed and one remaining to discard. -/
theorem skip_spec_witness :
    skipNext ([.ok (.int 5), .error ⟨2⟩, .ok .nil], 3)
      = some (.error ⟨2⟩, ([.ok .nil], 1))
    ∧ skipNext ([.ok (.int 0)], 0) = some (.ok (.int 0), ([], 0)) :=
  skip_spec [.int 5] ⟨2⟩ [.ok .nil] 3 [.ok (.int 0)] (by simp)

/-- Lookup after a map insert: the inserted key maps to the new value, all
other keys are unchanged. -/
lemma blookup_binsert (b : MetaBlock) (a k : String) (w : MetaVal) :
    blookup (binsert b a w) k = if k = a then some w else blookup b k := by
  induction b with
  | nil => simp [binsert, blookup]
  | cons hd t ih =>
    obtain ⟨k', v'⟩ := hd
    by_cases hak : a = k'
    · subst hak
      by_cases hk : k = a <;> simp [binsert, blookup, hk]
    · simp only [binsert, if_neg hak, blookup, ih]
      by_cases h1 : k = k' <;> by_cases h2 : k = a <;> simp_all

/-- A key absent from a block looks up to `none`. -/
lemma blookup_none_of_not_mem (b : MetaBlock) (k : String)
    (h : k ∉ b.map Prod.fst) : blookup b k = none := by
  induction b with
  | nil => rfl
  | cons hd t ih =>
    obtain ⟨k', v'⟩ := hd
    simp only [List.map_cons, List.mem_cons] at h
    push_neg at h
    simp [blookup, h.1, ih h.2]

/-- `BTreeMap::extend` is key-wise override: a key defined in the extending
block wins, all other keys keep the accumulated value. -/
lemma blookup_bextend (acc b : MetaBlock) (k : String) (hb : nodupKeys b) :
    blookup (bextend acc b) k = oor (blookup b k) (blookup acc k) := by
  induction b generalizing acc with
  | nil => simp [bextend, blookup, oor]
  | cons hd t ih =>
    obtain ⟨a, w⟩ := hd
    rw [nodupKeys, List.map_cons, List.nodup_cons] at hb
    obtain ⟨ha, ht⟩ := hb
    rw [show bextend acc ((a, w) :: t) = bextend (binsert acc a w) t from rfl,
      ih (binsert acc a w) ht, blookup_binsert]
    by_cases hk : k = a
    · subst hk
      rw [blookup_none_of_not_mem t k ha]
      simp [blookup, oor]
    · simp only [blookup, if_neg hk]

/-- `oor` is associative. -/
lemma oor_assoc (a b c : Option MetaVal) :
    oor a (oor b c) = oor (oor a b) c := by
  cases a <;> rfl

/-- `oor x none = x`. -/
lemma oor_none_right (a : Option MetaVal) : oor a none = a := by
  cases a <;> rfl

/-- The composition loop succeeds exactly when every location resolves, and
then folds the resolved blocks into the accumulator by `extend`. -/
lemma composite_go_eq (pif : MetaLocation → Except ProcError MetaBlock)
    (locs : List MetaLocation) (bs : List MetaBlock) (init : MetaBlock)
    (h : resolveAll pif locs = .ok bs) :
    composite_item_file.go pif init locs = .ok (bs.foldl bextend init) := by
  induction locs generalizing bs init with
  | nil =>
    simp only [resolveAll, Except.ok.injEq] at h
    subst h
    rfl
  | cons loc t ih =>
    cases hpl : pif loc with
    | error e => rw [resolveAll, hpl] at h; exact absurd h (by simp)
    | ok b =>
      rw [resolveAll, hpl] at h
      cases hrt : resolveAll pif t with
      | error e => rw [hrt] at h; exact absurd h (by simp)
      | ok bs' =>
        rw [hrt] at h
        simp only [Except.ok.injEq] at h
        subst h
        rw [show composite_item_file.go pif init (loc :: t)
              = composite_item_file.go pif (bextend init b) t from by
            simp [composite_item_file.go, hpl]]
        rw [ih bs' (bextend init b) hrt]
        rfl

/-- Folding `extend` over a list of well-formed blocks realizes combine-last
lookup on top of the initial accumulator. -/
lemma foldl_bextend_lookup (bs : List MetaBlock) (k : String) :
    ∀ init : MetaBlock, (∀ b ∈ bs, nodupKeys b) →
      blookup (bs.foldl bextend init) k = oor (lastWins bs k) (blookup init k) := by
  induction bs with
  | nil => intro init _; simp [lastWins, oor]
  | cons b t ih =>
    intro init hwf
    rw [List.foldl_cons,
      ih (bextend init b) (fun b' hb' => hwf b' (List.mem_cons_of_mem b hb')),
      blookup_bextend init b k (hwf b (List.mem_cons_self b t)),
      oor_assoc]
    rfl

/-- C1: `composite_item_file` invokes `process_item_file` once per meta
location in the caller-supplied order (`resolveAll pif locs = ok bs`) and
merges the resulting blocks key-wise with combine-last semantics: every
key's value in the composite block is the value from the latest block that
defines it, so later sources override earlier ones on shared keys and keys
unique to any single source are preserved. -/
theorem composite_item_file_combine_last
    (pif : MetaLocation → Except ProcError MetaBlock)
    (locs : List MetaLocation) (bs : List MetaBlock) (k : String)
    (h : resolveAll pif locs = .ok bs) (hwf : ∀ b ∈ bs, nodupKeys b) :
    composite_item_file pif locs = .ok (bs.foldl bextend [])
    ∧ blookup (bs.foldl bextend []) k = lastWins bs k := by
  constructor
  · exact composite_go_eq pif locs bs [] h
  · rw [foldl_bextend_lookup bs k [] hwf]
    rw [show blookup [] k = none from rfl, oor_none_right]

/-- Witness for `composite_item_file_combine_last`: two sources that share
the key `"k"` (the later one wins) and each contribute a unique key. -/
theorem composite_item_file_combine_last_witness :
    composite_item_file
      (fun loc => match loc with
        | .contains => .ok [("k", .str "A"), ("a", .int 1)]
        | .siblings => .ok [("k", .str "B"), ("b", .int 2)])
      [.contains, .siblings]
      = .ok ([[("k", .str "A"), ("a", .int 1)],
              [("k", .str "B"), ("b", .int 2)]].foldl bextend [])
    ∧ blookup ([[("k", MetaVal.str "A"), ("a", MetaVal.int 1)],
                [("k", MetaVal.str "B"), ("b", MetaVal.int 2)]].foldl bextend []) "k"
      = lastWins [[("k", .str "A"), ("a", .int 1)],
                  [("k", .str "B"), ("b", .int 2)]] "k" :=
  composite_item_file_combine_last
    (fun loc => match loc with
      | .contains => .ok [("k", .str "A"), ("a", .int 1)]
      | .siblings => .ok [("k", .str "B"), ("b", .int 2)])
    [.contains, .siblings]
    [[("k", .str "A"), ("a", .int 1)], [("k", .str "B"), ("b", .int 2)]]
    "k" rfl (by decide)

/-- A prefix of sources that all resolve with non-fatal errors is skipped
silently by `MetaPaths::next`. -/
lemma metaPathsNext_skip (fs : FS) (item : FsPath) (pre rest : List Source)
    (hpre : ∀ s' ∈ pre, ∃ e, s'.meta_path fs item = .error e ∧ e.is_fatal = false) :
    metaPathsNext fs item (pre ++ rest) = metaPathsNext fs item rest := by
  induction pre with
  | nil => rfl
  | cons s' t ih =>
    obtain ⟨e, he, hnf⟩ := hpre s' (List.mem_cons_self s' t)
    rw [List.cons_append, metaPathsNext, he]
    simp only [hnf, Bool.false_eq_true, if_false]
    exact ih (fun s'' hs'' => hpre s'' (List.mem_cons_of_mem s' hs''))

/-- C2: iterating `Sourcer::meta_paths` resolves each source in order; an
error is non-fatal exactly when it is a meta-file access failure of I/O
kind NotFound, a NotADir failure (item path not a directory, Internal
anchor), or a NoItemParentDir failure (item path without a parent, External
anchor); non-fatal errors are skipped silently, a successful resolution
after such a prefix is yielded with its source, and a fatal error is
yielded immediately with no further source tried on that pull. -/
theorem sourcer_meta_paths_spec (fs : FS) (item : FsPath)
    (pre post : List Source) (s : Source) (mp : FsPath) (er : SrcError)
    (hpre : ∀ s' ∈ pre, ∃ e, s'.meta_path fs item = .error e ∧ e.is_fatal = false) :
    (er.is_fatal = false ↔
      ((∃ p, er = .metaAccess p .notFound) ∨ (∃ p, er = .notADir p)
        ∨ (∃ p, er = .noItemParentDir p)))
    ∧ (s.meta_path fs item = .ok mp →
        metaPathsNext fs item (pre ++ s :: post) = some (.ok (mp, s), post))
    ∧ (s.meta_path fs item = .error er → er.is_fatal = true →
        metaPathsNext fs item (pre ++ s :: post) = some (.error er, post))
    ∧ metaPathsNext fs item pre = none := by
  refine ⟨?_, ?_, ?_, ?_⟩
  · rcases er with p | p | ⟨p, k⟩ | ⟨p, k⟩ | p | p | k
    · simp [SrcError.is_fatal]
    · simp [SrcError.is_fatal]
    · simp [SrcError.is_fatal]
    · cases k <;> simp [SrcError.is_fatal]
    · simp [SrcError.is_fatal]
    · simp [SrcError.is_fatal]
    · simp [SrcError.is_fatal]
  · intro h
    rw [metaPathsNext_skip fs item pre (s :: post) hpre, metaPathsNext, h]
  · intro h hf
    rw [metaPathsNext_skip fs item pre (s :: post) hpre, metaPathsNext, h]
    simp [hf]
  · have := metaPathsNext_skip fs item pre [] hpre
    rwa [List.append_nil] at this

/-- Witness for `sourcer_meta_paths_spec`: the spec scenario — a first
Internal source whose meta file is missing (non-fatal, skipped) and a
second External source whose meta file exists (yielded); plus a fatal
variant where the meta-file stat fails with permission denied. -/
theorem sourcer_meta_paths_spec_witness :
    metaPathsNext
      (fun p =>
        if p = ⟨true, ["root", "ALBUM"]⟩ then Except.ok ⟨true, false⟩
        else if p = ⟨true, ["root", "ALBUM", "self.yml"]⟩ then
          Except.error IoErrKind.notFound
        else if p = ⟨true, ["root", "item.yml"]⟩ then Except.ok ⟨false, true⟩
        else Except.error IoErrKind.notFound)
      ⟨true, ["root", "ALBUM"]⟩
      ([⟨"self.yml", .internal⟩] ++ ⟨"item.yml", .external⟩ :: [])
      = some (.ok (⟨true, ["root", "item.yml"]⟩, ⟨"item.yml", .external⟩), [])
    ∧ metaPathsNext
      (fun p =>
        if p = ⟨true, ["root", "ALBUM"]⟩ then Except.ok ⟨true, false⟩
        else Except.error IoErrKind.permissionDenied)
      ⟨true, ["root", "ALBUM"]⟩
      ([] ++ ⟨"item.yml", .external⟩ :: [])
      = some (.error (.metaAccess ⟨true, ["root", "item.yml"]⟩ .permissionDenied), []) :=
  ⟨(sourcer_meta_paths_spec
      (fun p =>
        if p = ⟨true, ["root", "ALBUM"]⟩ then Except.ok ⟨true, false⟩
        else if p = ⟨true, ["root", "ALBUM", "self.yml"]⟩ then
          Except.error IoErrKind.notFound
        else if p = ⟨true, ["root", "item.yml"]⟩ then Except.ok ⟨false, true⟩
        else Except.error IoErrKind.notFound)
      ⟨true, ["root", "ALBUM"]⟩
      [⟨"self.yml", .internal⟩] [] ⟨"item.yml", .external⟩
      ⟨true, ["root", "item.yml"]⟩ (.notADir ⟨true, []⟩)
      (by
        intro s' hs'
        rw [List.mem_singleton] at hs'
        subst hs'
        exact ⟨.metaAccess ⟨true, ["root", "ALBUM", "self.yml"]⟩ .notFound,
          rfl, rfl⟩)).2.1 rfl,
   (sourcer_meta_paths_spec
      (fun p =>
        if p = ⟨true, ["root", "ALBUM"]⟩ then Except.ok ⟨true, false⟩
        else Except.error IoErrKind.permissionDenied)
      ⟨true, ["root", "ALBUM"]⟩
      [] [] ⟨"item.yml", .external⟩ ⟨true, []⟩
      (.metaAccess ⟨true, ["root", "item.yml"]⟩ .permissionDenied)
      (by intro s' hs'; exact absurd hs' (List.not_mem_nil s'))).2.2.1 rfl rfl⟩

/-- Cross-multiplied integer comparison of two scaled decimals agrees with
the comparison of their rational values. -/
lemma icmp_eq_qcmp (m₁ m₂ : Int) (s₁ s₂ : Nat) :
    icmp (m₁ * 10 ^ s₂) (m₂ * 10 ^ s₁)
      = qcmp ((m₁ : ℚ) / 10 ^ s₁) ((m₂ : ℚ) / 10 ^ s₂) := by
  have h₁ : (0 : ℚ) < 10 ^ s₁ := by positivity
  have h₂ : (0 : ℚ) < 10 ^ s₂ := by positivity
  have hlt : (m₁ * 10 ^ s₂ < m₂ * 10 ^ s₁)
      ↔ ((m₁ : ℚ) / 10 ^ s₁ < (m₂ : ℚ) / 10 ^ s₂) := by
    rw [div_lt_div_iff₀ h₁ h₂]
    norm_cast
  have heq : (m₁ * 10 ^ s₂ = m₂ * 10 ^ s₁)
      ↔ ((m₁ : ℚ) / 10 ^ s₁ = (m₂ : ℚ) / 10 ^ s₂) := by
    rw [div_eq_div_iff (ne_of_gt h₁) (ne_of_gt h₂)]
    norm_cast
  unfold icmp qcmp
  simp only [hlt, heq]

/-- C8: `val_cmp` is the total order on `NumberLike` induced by the exact
rational value of each operand (an `Integer` is promoted to a `Decimal` of
identical numeric value), and in particular `Integer(i) val_eq Decimal(i)`
holds for every 64-bit integer `i`. -/
theorem numberlike_val_cmp_consistent (a b : NumberLike) (i : Int)
    (hi : -(2 ^ 63) ≤ i ∧ i < 2 ^ 63) :
    a.val_cmp b = qcmp a.toRat b.toRat
    ∧ NumberLike.val_eq (.integer i) (.decimal (BigDec.fromInt i)) = true := by
  refine ⟨?_, ?_⟩
  · match a, b with
    | .integer l, .integer r =>
      show icmp l r = qcmp (l : ℚ) (r : ℚ)
      simpa using icmp_eq_qcmp l r 0 0
    | .integer l, .decimal r =>
      show icmp (l * 10 ^ r.scale) (r.intVal * 10 ^ 0)
        = qcmp (l : ℚ) ((r.intVal : ℚ) / 10 ^ r.scale)
      simpa using icmp_eq_qcmp l r.intVal 0 r.scale
    | .decimal l, .integer r =>
      show icmp (l.intVal * 10 ^ 0) (r * 10 ^ l.scale)
        = qcmp ((l.intVal : ℚ) / 10 ^ l.scale) (r : ℚ)
      simpa using icmp_eq_qcmp l.intVal r l.scale 0
    | .decimal l, .decimal r =>
      exact icmp_eq_qcmp l.intVal r.intVal l.scale r.scale
  · simp only [NumberLike.val_eq, NumberLike.val_cmp, BigDec.cmp,
      BigDec.fromInt, icmp, pow_zero, mul_one, lt_self_iff_false, if_false,
      if_true]
    decide

/-- Witness for `numberlike_val_cmp_consistent`: `2` against the decimal
`2.5`, and the promoted equality at `i = 42`. -/
theorem numberlike_val_cmp_consistent_witness :
    NumberLike.val_cmp (.integer 2) (.decimal ⟨25, 1⟩)
      = qcmp (NumberLike.integer 2).toRat (NumberLike.decimal ⟨25, 1⟩).toRat
    ∧ NumberLike.val_eq (.integer 42) (.decimal (BigDec.fromInt 42)) = true :=
  numberlike_val_cmp_consistent (.integer 2) (.decimal ⟨25, 1⟩) 42 (by decide)

/-- C10 counterexample: at the minimum representable 64-bit value
`i = -2 ^ 63`, both `Neg` and `Abs` wrap around to `-2 ^ 63` itself, which
differs from the exact mathematical values `-i = 2 ^ 63` and
`|i| = 2 ^ 63`. -/
theorem op_neg_abs_c10_counterexample :
    opNeg (.integer (-(2 ^ 63))) = .integer (-(2 ^ 63))
    ∧ (-(2 ^ 63) : Int) ≠ -(-(2 ^ 63) : Int)
    ∧ opAbs (.integer (-(2 ^ 63))) = .integer (-(2 ^ 63))
    ∧ (-(2 ^ 63) : Int) ≠ |(-(2 ^ 63) : Int)| := by
  refine ⟨?_, by decide, ?_, by decide⟩
  · simp only [opNeg, wrap64]
    norm_num
  · simp only [opAbs, wrap64]
    norm_num

/-- C10 (amended): for every 64-bit integer `i` other than `-2 ^ 63`, `Neg`
on `Integer(i)` returns the exact mathematical value `-i` and `Abs` returns
the exact `|i|`; at `i = -2 ^ 63` both overflow (two's-complement
wraparound yields `-2 ^ 63` itself). -/
theorem op_neg_abs_exact (i : Int) (h₁ : -(2 ^ 63) ≤ i) (h₂ : i < 2 ^ 63)
    (h₃ : i ≠ -(2 ^ 63)) :
    opNeg (.integer i) = .integer (-i) ∧ opAbs (.integer i) = .integer |i| := by
  have e₁ : (2 : Int) ^ 63 = 9223372036854775808 := by norm_num
  have e₂ : (2 : Int) ^ 64 = 18446744073709551616 := by norm_num
  have hid : ∀ z : Int, -(2 ^ 63) ≤ z → z < 2 ^ 63 → wrap64 z = z := by
    intro z hz₁ hz₂
    unfold wrap64
    rw [e₁] at hz₁ hz₂ ⊢
    rw [e₂]
    omega
  have habs₁ : -(2 ^ 63) ≤ |i| :=
    le_trans (by norm_num) (abs_nonneg i)
  have habs₂ : |i| < 2 ^ 63 := by
    rcases le_or_lt 0 i with h | h
    · rwa [abs_of_nonneg h]
    · rw [abs_of_neg h]
      omega
  constructor
  · simp only [opNeg, hid (-i) (by omega) (by omega)]
  · simp only [opAbs, hid |i| habs₁ habs₂]

/-- Witness for `op_neg_abs_exact` at `i = -5`. -/
theorem op_neg_abs_exact_witness :
    opNeg (.integer (-5)) = .integer (-(-5 : Int))
    ∧ opAbs (.integer (-5)) = .integer |(-5 : Int)| :=
  op_neg_abs_exact (-5) (by decide) (by decide) (by decide)

end Akashic
